import Mathlib

/-!
Shallow embedding of the word-count tracker web application (Express + PostgreSQL).

The state of the relational store (tables "User"/Security, Project, Goal,
ProgressLog) is modelled as lists of rows, and each route handler of the
enhanced server (`src/unnamed/part_000`) is a pure function from the store,
the session and the request fields to the new store, the list of issued
database queries, and the rendered response.  JavaScript `parseInt` and the
whitespace tokenization `text.trim().split` are modelled character by
character.  Timestamps are natural numbers; `CURRENT_TIMESTAMP` is an explicit
`now` argument.
-/

namespace WordTracker

/-- JavaScript whitespace characters recognized by `trim` and the `\s` class
(restricted to the common ASCII whitespace used by the application). -/
def isWsChar (c : Char) : Bool :=
  c == ' ' || c == '\t' || c == '\n' || c == '\r'

/-- `String.prototype.trim`: drop whitespace from both ends. -/
def trimJS (s : List Char) : List Char :=
  (((s.dropWhile isWsChar).reverse).dropWhile isWsChar).reverse

/-- Count of maximal runs of non-whitespace characters; `inTok` records
whether the previous character belonged to a token. -/
def countTokensAux : List Char → Bool → Nat
  | [], _ => 0
  | c :: cs, inTok =>
    if isWsChar c then countTokensAux cs false
    else if inTok then countTokensAux cs true
    else countTokensAux cs true + 1

/-- Length of `s.split(/\s+/)` for a string with no leading whitespace
(the application only applies it to trimmed text):  the empty string splits
to `[""]` of length 1, otherwise the number of whitespace-separated tokens. -/
def splitWsLen (s : List Char) : Nat :=
  if s.isEmpty then 1 else countTokensAux s false

/-- Numeric value of a decimal digit character. -/
def digitVal (c : Char) : Nat := c.toNat - 48

/-- Leading decimal digits of a character list, `none` when there are none. -/
def parseDigits (cs : List Char) : Option Nat :=
  let ds := cs.takeWhile Char.isDigit
  if ds.isEmpty then none
  else some (ds.foldl (fun a c => 10 * a + digitVal c) 0)

/-- JavaScript `parseInt(s)` in base 10: skip leading whitespace, optional
sign, then the longest digit run; `none` models `NaN`. -/
def parseIntJS (s : List Char) : Option Int :=
  match s.dropWhile isWsChar with
  | '-' :: rest => (parseDigits rest).map (fun n => -(n : Int))
  | '+' :: rest => (parseDigits rest).map (fun n => (n : Int))
  | t => (parseDigits t).map (fun n => (n : Int))

/-- `parseInt` applied to an optional form field (`none` models a missing or
empty field, which is falsy in JavaScript and parses to `NaN`). -/
def parseIntOpt (o : Option (List Char)) : Option Int :=
  o.bind parseIntJS

/-- A row of the joined "User"/Security tables (1:1 in the schema). -/
structure UserRow where
  userId : Int
  username : String
  email : String
  firstName : String
  lastName : String
  permissions : String
  passwordText : String
  lastLogin : Option Nat
  deriving DecidableEq

/-- A row of the Project table. -/
structure ProjectRow where
  projectId : Int
  userId : Int
  title : String
  genre : String
  description : Option String
  startDate : Nat
  deriving DecidableEq

/-- A row of the Goal table. -/
structure GoalRow where
  projectId : Int
  goalType : String
  targetValue : Int
  dailyTarget : Int
  startDate : Nat
  isActive : Bool
  deriving DecidableEq

/-- A row of the ProgressLog table: per-entry delta (`word_count`), running
total (`total_words`), and timestamp (`log_date`). -/
structure ProgressRow where
  projectId : Int
  wordCount : Int
  totalWords : Int
  logDate : Nat
  deriving DecidableEq

/-- The relational store, each table as a list of rows in insertion order. -/
structure DB where
  users : List UserRow
  projects : List ProjectRow
  goals : List GoalRow
  logs : List ProgressRow
  deriving DecidableEq

/-- The per-request session data set by the login handler. -/
structure Session where
  isLoggedIn : Bool
  userId : Int
  username : String
  permissions : String
  deriving DecidableEq

/-- Marker for each database query a handler issues. -/
inductive DbOp where
  | selUser | updSecurity | selProjects | selProjectDetail | insProject
  | insGoal | insLog | selLastLog | updProject | updGoal | delLogs
  | delGoals | delProject | selUsers | updUser | delUser
  deriving DecidableEq

/-- The observable response a handler produces. -/
inductive Response where
  | renderLogin (errorMessage : Option String)
  | redirect (path : String)
  | renderDashboard
  | renderAddProject
  | renderEditProject (found : Bool)
  | renderLogWords (found : Bool) (errorMessage : Option String)
  | renderStats
  | renderManageUsers
  | renderEditUser (found : Bool)
  | forbidden (message : String)
  | badRequest (message : String)
  deriving DecidableEq

/-- Result of running one handler: new store, issued queries, response. -/
structure Out where
  db : DB
  ops : List DbOp
  resp : Response
  deriving DecidableEq

/-- Rows of the ProgressLog table belonging to a project
(`WHERE project_id = $1`), in insertion order. -/
def projLog (db : DB) (pid : Int) : List ProgressRow :=
  db.logs.filter (fun r => r.projectId == pid)

/-- `ORDER BY log_date DESC LIMIT 1`: a row of maximal `log_date`; ties are
resolved to the most recently inserted row. -/
def maxByDate : List ProgressRow → Option ProgressRow
  | [] => none
  | r :: rs =>
    match maxByDate rs with
    | none => some r
    | some m => if m.logDate ≥ r.logDate then some m else some r

/-- The latest ProgressLog row of a project, if any. -/
def lastLogRow (db : DB) (pid : Int) : Option ProgressRow :=
  maxByDate (projLog db pid)

/-- The current word total of a project: `total_words` of its latest entry,
`0` when the project has no entries (`COALESCE(pl.total_words, 0)`). -/
def currentTotal (db : DB) (pid : Int) : Int :=
  match lastLogRow db pid with
  | some r => r.totalWords
  | none => 0

/-- Word count derived from free text: `text && text.trim()` guards the
tokenization `text.trim().split(/\s+/).length`, otherwise `0`. -/
def textCount (text : Option (List Char)) : Int :=
  match text with
  | some t => if (trimJS t).isEmpty then 0 else (splitWsLen (trimJS t) : Int)
  | none => 0

/-- The handler's word count: `manual_count && parseInt(manual_count) > 0`
takes the manual count, otherwise the text tokenization. -/
def wordCountOf (text manual : Option (List Char)) : Int :=
  match manual with
  | some m =>
    match parseIntJS m with
    | some n => if 0 < n then n else textCount text
    | none => textCount text
  | none => textCount text

/-- Whether the manual-count field is present and parses to a positive
integer (the condition of the first branch of the handler). -/
def manualPositive (manual : Option (List Char)) : Bool :=
  match manual with
  | some m =>
    match parseIntJS m with
    | some n => decide (0 < n)
    | none => false
  | none => false

/-- Whether the text field is absent or trims to the empty string. -/
def trimEmptyText (text : Option (List Char)) : Bool :=
  match text with
  | some t => (trimJS t).isEmpty
  | none => true

/-- Whether a project row with this id belongs to the given user
(`WHERE p.project_id = $1 AND p.user_id = $2`). -/
def projectOwned (db : DB) (pid uid : Int) : Bool :=
  db.projects.any (fun p => p.projectId == pid && p.userId == uid)

/-- `POST /log-words/:id`: derive the word count; a zero count re-renders the
log-words form with an error after re-reading the project (owner-scoped);
otherwise read the last total (`WHERE project_id = $1`, with no user filter,
exactly as in the source) and append a new entry at `CURRENT_TIMESTAMP`. -/
def postLogWords (db : DB) (sess : Session) (pid : Int)
    (text manual : Option (List Char)) (now : Nat) : Out :=
  let wc := wordCountOf text manual
  if wc = 0 then
    { db := db
      ops := [DbOp.selProjectDetail]
      resp := Response.renderLogWords (projectOwned db pid sess.userId)
        (some "Please enter text or a word count") }
  else
    let prev := currentTotal db pid
    { db := { db with logs := db.logs ++ [⟨pid, wc, prev + wc, now⟩] }
      ops := [DbOp.selLastLog, DbOp.insLog]
      resp := Response.redirect "/dashboard" }

/-- `POST /add`: insert the project (the fresh serial id is the `freshPid`
argument), insert one active `total_words` goal (a malformed `targetWords`
makes that insert fail, caught by the route's try/catch, so the goal row is
absent), and, when `parseInt(currentWords) > 0`, insert an initial progress
entry whose `log_date` is the submitted `startDate`. -/
def postAdd (db : DB) (sess : Session) (freshPid : Int) (title genre : String)
    (descr : Option String) (targetWords currentWords dailyGoal : Option (List Char))
    (startDate : Nat) : Out :=
  let db1 := { db with projects := db.projects ++
      [⟨freshPid, sess.userId, title, genre, descr, startDate⟩] }
  match parseIntOpt targetWords with
  | none =>
    { db := db1, ops := [DbOp.insProject, DbOp.insGoal]
      resp := Response.redirect "/dashboard" }
  | some tv =>
    let dt := match parseIntOpt dailyGoal with
      | some n => if n = 0 then 1000 else n
      | none => 1000
    let db2 := { db1 with goals := db1.goals ++
        [⟨freshPid, "total_words", tv, dt, startDate, true⟩] }
    match parseIntOpt currentWords with
    | some n =>
      if 0 < n then
        { db := { db2 with logs := db2.logs ++ [⟨freshPid, n, n, startDate⟩] }
          ops := [DbOp.insProject, DbOp.insGoal, DbOp.insLog]
          resp := Response.redirect "/dashboard" }
      else
        { db := db2, ops := [DbOp.insProject, DbOp.insGoal]
          resp := Response.redirect "/dashboard" }
    | none =>
      { db := db2, ops := [DbOp.insProject, DbOp.insGoal]
        resp := Response.redirect "/dashboard" }

/-- `POST /edit/:id`: update the project row (owner-scoped), update the
active `total_words` goal (a malformed `targetWords` makes that update fail
and the route's catch skips the progress section), then reconcile the
restated current total: with no prior entry and a positive total insert
`(total, total)`, with a prior entry whose total differs insert the signed
difference.  The progress insert names no `log_date`; the column default
`CURRENT_TIMESTAMP` is modelled by the `now` argument (the schema file is not
part of the sources; the spec states entry timestamps are the append time). -/
def postEdit (db : DB) (sess : Session) (pid : Int) (title genre : String)
    (descr : Option String) (targetWords currentWords dailyGoal : Option (List Char))
    (startDate : Nat) (now : Nat) : Out :=
  let db1 := { db with projects := db.projects.map (fun p =>
      if p.projectId == pid && p.userId == sess.userId then
        { p with title := title, genre := genre, description := descr,
                 startDate := startDate }
      else p) }
  match parseIntOpt targetWords with
  | none =>
    { db := db1, ops := [DbOp.updProject, DbOp.updGoal]
      resp := Response.redirect "/dashboard" }
  | some tv =>
    let dt := match parseIntOpt dailyGoal with
      | some n => if n = 0 then 1000 else n
      | none => 1000
    let db2 := { db1 with goals := db1.goals.map (fun g =>
        if g.projectId == pid && g.goalType == "total_words" && g.isActive then
          { g with targetValue := tv, dailyTarget := dt }
        else g) }
    -- the preceding UPDATEs never touch ProgressLog, so the last-entry
    -- query reads exactly the rows of `db`
    match maxByDate (projLog db pid), parseIntOpt currentWords with
    | none, some n =>
      if 0 < n then
        { db := { db2 with logs := db2.logs ++ [⟨pid, n, n, now⟩] }
          ops := [DbOp.updProject, DbOp.updGoal, DbOp.selLastLog, DbOp.insLog]
          resp := Response.redirect "/dashboard" }
      else
        { db := db2, ops := [DbOp.updProject, DbOp.updGoal, DbOp.selLastLog]
          resp := Response.redirect "/dashboard" }
    | none, none =>
      { db := db2, ops := [DbOp.updProject, DbOp.updGoal, DbOp.selLastLog]
        resp := Response.redirect "/dashboard" }
    | some e, some n =>
      if e.totalWords ≠ n then
        { db := { db2 with logs := db2.logs ++ [⟨pid, n - e.totalWords, n, now⟩] }
          ops := [DbOp.updProject, DbOp.updGoal, DbOp.selLastLog, DbOp.insLog]
          resp := Response.redirect "/dashboard" }
      else
        { db := db2, ops := [DbOp.updProject, DbOp.updGoal, DbOp.selLastLog]
          resp := Response.redirect "/dashboard" }
    | some _, none =>
      { db := db2
        ops := [DbOp.updProject, DbOp.updGoal, DbOp.selLastLog, DbOp.insLog]
        resp := Response.redirect "/dashboard" }

/-- `POST /delete/:id`: the source deletes the project's ProgressLog and Goal
rows filtered by `project_id` alone, and only the Project row itself is
additionally filtered by the session `user_id`. -/
def postDelete (db : DB) (sess : Session) (pid : Int) : Out :=
  { db := { db with
      logs := db.logs.filter (fun r => !(r.projectId == pid)),
      goals := db.goals.filter (fun g => !(g.projectId == pid)),
      projects := db.projects.filter
        (fun p => !(p.projectId == pid && p.userId == sess.userId)) }
    ops := [DbOp.delLogs, DbOp.delGoals, DbOp.delProject]
    resp := Response.redirect "/dashboard" }

/-- `POST /delete-user/:id`: `requireManager`, then reject deletion of the
session user's own id with a 400 before any query; a `NaN` id falls through,
the DELETE fails on the non-integer parameter and the catch redirects. -/
def postDeleteUser (db : DB) (sess : Session) (idStr : List Char) : Out :=
  if sess.permissions == "M" then
    match parseIntJS idStr with
    | some uid =>
      if uid = sess.userId then
        { db := db, ops := []
          resp := Response.badRequest "You cannot delete your own account" }
      else
        { db := { db with users := db.users.filter (fun u => !(u.userId == uid)) }
          ops := [DbOp.delUser], resp := Response.redirect "/manage-users" }
    | none =>
      { db := db, ops := [DbOp.delUser]
        resp := Response.redirect "/manage-users" }
  else
    { db := db, ops := []
      resp := Response.forbidden "Access denied. Manager permissions required." }

/-- `POST /edit-user/:id` body (manager-only; the gate is applied by the
dispatcher): update the user row by id, unconditionally. -/
def postEditUser (db : DB) (uid : Int)
    (username email firstName lastName permissions : String) : Out :=
  { db := { db with users := db.users.map (fun u =>
      if u.userId == uid then
        { u with username := username, email := email, firstName := firstName,
                 lastName := lastName, permissions := permissions }
      else u) }
    ops := [DbOp.updUser], resp := Response.redirect "/manage-users" }

/-- `POST /login`: select the user (with the joined Security row) by
username; a missing user and a wrong password produce the same rendered
login view with the same message; success stamps `last_login` and
redirects. -/
def postLogin (db : DB) (username password : String) (now : Nat) : Out :=
  match db.users.find? (fun u => u.username == username) with
  | none =>
    { db := db, ops := [DbOp.selUser]
      resp := Response.renderLogin (some "Invalid username or password") }
  | some u =>
    if password == u.passwordText then
      { db := { db with users := db.users.map (fun x =>
          if x.userId == u.userId then { x with lastLogin := some now } else x) }
        ops := [DbOp.selUser, DbOp.updSecurity]
        resp := Response.redirect "/dashboard" }
    else
      { db := db, ops := [DbOp.selUser]
        resp := Response.renderLogin (some "Invalid username or password") }

/-- An incoming HTTP request with its parsed route parameters and body. -/
inductive Request where
  | getRoot
  | postLoginReq (username password : String)
  | getLogout
  | getDashboard
  | getSearch (q : String)
  | getAddForm
  | postAddReq (freshPid : Int) (title genre : String) (descr : Option String)
      (targetWords currentWords dailyGoal : Option (List Char)) (startDate : Nat)
  | getEditForm (pid : Int)
  | postEditReq (pid : Int) (title genre : String) (descr : Option String)
      (targetWords currentWords dailyGoal : Option (List Char)) (startDate : Nat)
  | postDeleteReq (pid : Int)
  | getLogWordsForm (pid : Int)
  | postLogWordsReq (pid : Int) (text manual : Option (List Char))
  | getStats
  | getManageUsers
  | getEditUserForm (uid : Int)
  | postEditUserReq (uid : Int)
      (username email firstName lastName permissions : String)
  | postDeleteUserReq (idStr : List Char)
  deriving DecidableEq

/-- The `req.path` the authentication middleware inspects. -/
def Request.path : Request → String
  | Request.getRoot => "/"
  | Request.postLoginReq _ _ => "/login"
  | Request.getLogout => "/logout"
  | Request.getDashboard => "/dashboard"
  | Request.getSearch _ => "/search"
  | Request.getAddForm => "/add"
  | Request.postAddReq .. => "/add"
  | Request.getEditForm pid => "/edit/" ++ toString pid
  | Request.postEditReq pid .. => "/edit/" ++ toString pid
  | Request.postDeleteReq pid => "/delete/" ++ toString pid
  | Request.getLogWordsForm pid => "/log-words/" ++ toString pid
  | Request.postLogWordsReq pid .. => "/log-words/" ++ toString pid
  | Request.getStats => "/stats"
  | Request.getManageUsers => "/manage-users"
  | Request.getEditUserForm uid => "/edit-user/" ++ toString uid
  | Request.postEditUserReq uid .. => "/edit-user/" ++ toString uid
  | Request.postDeleteUserReq idStr => "/delete-user/" ++ String.mk idStr

/-- The paths the authentication middleware lets through unauthenticated. -/
def openPaths : List String := ["/", "/login", "/logout"]

/-- The forbidden response produced by `requireManager`. -/
def forbiddenOut (db : DB) : Out :=
  { db := db, ops := []
    resp := Response.forbidden "Access denied. Manager permissions required." }

/-- Routing of an open-path request (no authentication required). -/
def dispatchOpen (db : DB) (req : Request) (now : Nat) : Out :=
  match req with
  | Request.postLoginReq u p => postLogin db u p now
  | Request.getLogout => { db := db, ops := [], resp := Response.redirect "/" }
  | _ => { db := db, ops := [], resp := Response.renderLogin none }

/-- Routing of an authenticated request to its handler; manager-only routes
first pass through `requireManager`. -/
def dispatchProtected (db : DB) (sess : Session) (req : Request) (now : Nat) : Out :=
  match req with
  | Request.getDashboard =>
    { db := db, ops := [DbOp.selProjects], resp := Response.renderDashboard }
  | Request.getSearch _ =>
    { db := db, ops := [DbOp.selProjects], resp := Response.renderDashboard }
  | Request.getAddForm =>
    { db := db, ops := [], resp := Response.renderAddProject }
  | Request.postAddReq f t g d tw cw dg sd => postAdd db sess f t g d tw cw dg sd
  | Request.getEditForm pid =>
    { db := db, ops := [DbOp.selProjectDetail]
      resp := if projectOwned db pid sess.userId then Response.renderEditProject true
        else Response.redirect "/dashboard" }
  | Request.postEditReq pid t g d tw cw dg sd =>
    postEdit db sess pid t g d tw cw dg sd now
  | Request.postDeleteReq pid => postDelete db sess pid
  | Request.getLogWordsForm pid =>
    { db := db, ops := [DbOp.selProjectDetail]
      resp := if projectOwned db pid sess.userId then Response.renderLogWords true none
        else Response.redirect "/dashboard" }
  | Request.postLogWordsReq pid text manual => postLogWords db sess pid text manual now
  | Request.getStats =>
    { db := db, ops := [DbOp.selProjects], resp := Response.renderStats }
  | Request.getManageUsers =>
    if sess.permissions == "M" then
      { db := db, ops := [DbOp.selUsers], resp := Response.renderManageUsers }
    else forbiddenOut db
  | Request.getEditUserForm uid =>
    if sess.permissions == "M" then
      { db := db, ops := [DbOp.selUser]
        resp := if db.users.any (fun u => u.userId == uid) then Response.renderEditUser true
          else Response.redirect "/manage-users" }
    else forbiddenOut db
  | Request.postEditUserReq uid un em fn ln pm =>
    if sess.permissions == "M" then postEditUser db uid un em fn ln pm
    else forbiddenOut db
  | Request.postDeleteUserReq idStr => postDeleteUser db sess idStr
  | _ => { db := db, ops := [], resp := Response.renderLogin none }

/-- The whole request pipeline: the authentication middleware lets the open
paths through, lets authenticated sessions through, and otherwise renders
the login view with an error message before any route handler runs. -/
def handleRequest (db : DB) (sess : Session) (req : Request) (now : Nat) : Out :=
  if openPaths.contains (Request.path req) then dispatchOpen db req now
  else if sess.isLoggedIn then dispatchProtected db sess req now
  else
    { db := db, ops := []
      resp := Response.renderLogin (some "Please log in to access this page") }

/-- The state-mutating project operations, for invariant claims: project
creation, project edit, word logging, project deletion. -/
inductive MutOp where
  | add (freshPid : Int) (title genre : String) (descr : Option String)
      (targetWords currentWords dailyGoal : Option (List Char)) (startDate : Nat)
  | edit (pid : Int) (title genre : String) (descr : Option String)
      (targetWords currentWords dailyGoal : Option (List Char)) (startDate : Nat)
  | logWords (pid : Int) (text manual : Option (List Char))
  | deleteProject (pid : Int)
  deriving DecidableEq

/-- The store produced by one mutating operation. -/
def applyOp (db : DB) (sess : Session) (now : Nat) : MutOp → DB
  | MutOp.add f t g d tw cw dg sd => (postAdd db sess f t g d tw cw dg sd).db
  | MutOp.edit p t g d tw cw dg sd => (postEdit db sess p t g d tw cw dg sd now).db
  | MutOp.logWords p text manual => (postLogWords db sess p text manual now).db
  | MutOp.deleteProject p => (postDelete db sess p).db

/-- Ledger check along a list of entries in insertion order, carrying the
previous entry's timestamp and running total: timestamps never decrease and
each running total is the previous total plus the entry's delta. -/
def ledgerFrom : Option Nat → Int → List ProgressRow → Bool
  | _, _, [] => true
  | lastTs, prevTot, r :: rs =>
    (match lastTs with
     | none => true
     | some t => decide (t ≤ r.logDate)) &&
    (r.totalWords == prevTot + r.wordCount) &&
    ledgerFrom (some r.logDate) r.totalWords rs

/-- The ledger invariant for one project's entries: monotone timestamps and
running totals chained from zero (the first total equals its own delta). -/
def ledgerOk (l : List ProgressRow) : Bool := ledgerFrom none 0 l

/-- The ledger invariant over the whole store. -/
def ledgerInv (db : DB) : Prop :=
  ∀ pid : Int, ledgerOk (projLog db pid) = true

/-- The active `total_words` goals of a project. -/
def activeGoals (db : DB) (pid : Int) : List GoalRow :=
  db.goals.filter (fun g => g.projectId == pid && g.isActive && g.goalType == "total_words")

/-- At most one active `total_words` goal per project. -/
def goalInv (db : DB) : Prop :=
  ∀ pid : Int, (activeGoals db pid).length ≤ 1

/-- Timestamp/freshness side conditions of one operation: a created project's
serial id has no prior log rows, and an appended entry's timestamp (`now` for
word logging and edits) is not earlier than any existing entry of that
project. -/
def opLogSafe (db : DB) (now : Nat) : MutOp → Prop
  | MutOp.add f _ _ _ _ _ _ _ => projLog db f = []
  | MutOp.edit p _ _ _ _ _ _ _ => ∀ r ∈ projLog db p, r.logDate ≤ now
  | MutOp.logWords p _ _ => ∀ r ∈ projLog db p, r.logDate ≤ now
  | MutOp.deleteProject _ => True

/-- Goal-freshness side condition: a created project's serial id has no
prior goal rows. -/
def opGoalSafe (db : DB) : MutOp → Prop
  | MutOp.add f _ _ _ _ _ _ _ => db.goals.filter (fun g => g.projectId == f) = []
  | _ => True

/-- Timestamp and running total at the end of a list, given the values
before it. -/
def lastTsD (s : Option Nat) : List ProgressRow → Option Nat
  | [] => s
  | r :: rs => lastTsD (some r.logDate) rs

/-- Running total at the end of a list, given the total before it. -/
def lastTotD (p : Int) : List ProgressRow → Int
  | [] => p
  | r :: rs => lastTotD r.totalWords rs

/-- `projLog` ignores the projects table. -/
theorem projLog_projects (db : DB) (P : List ProjectRow) (q : Int) :
    projLog { db with projects := P } q = projLog db q := rfl

/-- `projLog` ignores the goals table. -/
theorem projLog_goals (db : DB) (G : List GoalRow) (q : Int) :
    projLog { db with goals := G } q = projLog db q := rfl

/-- The ledger invariant ignores the projects table. -/
theorem ledgerInv_projects (db : DB) (P : List ProjectRow) :
    ledgerInv { db with projects := P } ↔ ledgerInv db := Iff.rfl

/-- Unfolding of the ledger check at a cons cell. -/
theorem ledgerFrom_cons (s : Option Nat) (p : Int) (a : ProgressRow)
    (l : List ProgressRow) :
    ledgerFrom s p (a :: l) =
      ((match s with
        | none => true
        | some t => decide (t ≤ a.logDate)) &&
       (a.totalWords == p + a.wordCount) &&
       ledgerFrom (some a.logDate) a.totalWords l) := rfl

/-- Splitting the ledger check at a final element. -/
theorem ledgerFrom_append (s : Option Nat) (p : Int) (l : List ProgressRow)
    (r : ProgressRow) :
    ledgerFrom s p (l ++ [r]) = true ↔
      (ledgerFrom s p l = true ∧
       (∀ t, lastTsD s l = some t → t ≤ r.logDate) ∧
       r.totalWords = lastTotD p l + r.wordCount) := by
  induction l generalizing s p with
  | nil =>
    cases s with
    | none =>
      simp [ledgerFrom, lastTsD, lastTotD, Bool.and_eq_true, beq_iff_eq]
    | some t =>
      simp [ledgerFrom, lastTsD, lastTotD, Bool.and_eq_true, beq_iff_eq,
        decide_eq_true_eq, and_comm]
  | cons a l ih =>
    rw [List.cons_append, ledgerFrom_cons, ledgerFrom_cons]
    simp only [Bool.and_eq_true, lastTsD, lastTotD, ih]
    tauto

/-- A defined final timestamp is the start value or belongs to the list. -/
theorem lastTsD_cases (s : Option Nat) (l : List ProgressRow) (t : Nat)
    (h : lastTsD s l = some t) : s = some t ∨ ∃ r ∈ l, r.logDate = t := by
  induction l generalizing s with
  | nil => exact Or.inl h
  | cons a l ih =>
    rw [lastTsD] at h
    rcases ih (some a.logDate) h with h' | ⟨r, hr, ht⟩
    · refine Or.inr ⟨a, List.mem_cons_self a l, ?_⟩
      injection h'
    · exact Or.inr ⟨r, List.mem_cons_of_mem _ hr, ht⟩

/-- `maxByDate` is `none` exactly on the empty list. -/
theorem maxByDate_eq_none (l : List ProgressRow) : maxByDate l = none ↔ l = [] := by
  cases l with
  | nil => simp [maxByDate]
  | cons r rs =>
    simp only [maxByDate]
    cases maxByDate rs with
    | none => simp
    | some m => by_cases h : m.logDate ≥ r.logDate <;> simp [h]

/-- Unfolding of `maxByDate` at a cons cell. -/
theorem maxByDate_cons (r : ProgressRow) (rs : List ProgressRow) :
    maxByDate (r :: rs) =
      (match maxByDate rs with
       | none => some r
       | some m => if m.logDate ≥ r.logDate then some m else some r) := rfl

/-- Appending an entry whose timestamp dominates the list makes it the
latest entry. -/
theorem maxByDate_append_big (l : List ProgressRow) (r : ProgressRow)
    (h : ∀ x ∈ l, x.logDate ≤ r.logDate) : maxByDate (l ++ [r]) = some r := by
  induction l with
  | nil => simp [maxByDate]
  | cons a l ih =>
    have ha := h a (List.mem_cons_self a l)
    have ih' := ih (fun x hx => h x (List.mem_cons_of_mem _ hx))
    rw [List.cons_append, maxByDate_cons, ih']
    simp [ge_iff_le, ha]

/-- Along a valid ledger started at timestamp `t0`, every entry's timestamp
is at least `t0`. -/
theorem ledgerFrom_ts_le (t0 : Nat) (p : Int) (l : List ProgressRow)
    (h : ledgerFrom (some t0) p l = true) : ∀ x ∈ l, t0 ≤ x.logDate := by
  induction l generalizing t0 p with
  | nil => intro x hx; cases hx
  | cons r rs ih =>
    rw [ledgerFrom_cons] at h
    simp only [Bool.and_eq_true] at h
    obtain ⟨⟨h1, _⟩, h3⟩ := h
    have h1' : t0 ≤ r.logDate := of_decide_eq_true h1
    intro x hx
    rcases List.mem_cons.mp hx with rfl | hx'
    · exact h1'
    · exact le_trans h1' (ih r.logDate r.totalWords h3 x hx')

/-- The last element of a list is a member. -/
theorem lastElem_mem : ∀ (l : List ProgressRow) (x : ProgressRow),
    l.getLast? = some x → x ∈ l := by
  intro l
  induction l with
  | nil => intro x hx; cases hx
  | cons a l ih =>
    intro x hx
    cases l with
    | nil =>
      rw [List.getLast?_singleton] at hx
      injection hx with hx
      exact hx ▸ List.mem_cons_self a []
    | cons b l' =>
      rw [List.getLast?_cons_cons] at hx
      exact List.mem_cons_of_mem _ (ih x hx)

/-- On a valid ledger (timestamps nondecreasing, ties broken towards later
insertions) the latest entry by date is the last inserted entry. -/
theorem maxByDate_of_ledger (s : Option Nat) (p : Int) (l : List ProgressRow)
    (h : ledgerFrom s p l = true) : maxByDate l = l.getLast? := by
  induction l generalizing s p with
  | nil => rfl
  | cons r rs ih =>
    rw [ledgerFrom_cons] at h
    simp only [Bool.and_eq_true] at h
    obtain ⟨⟨_, _⟩, h3⟩ := h
    have ihr := ih (some r.logDate) r.totalWords h3
    rw [maxByDate_cons]
    cases hmx : maxByDate rs with
    | none =>
      have hnil : rs = [] := (maxByDate_eq_none rs).mp hmx
      subst hnil
      rfl
    | some m =>
      have hmem : m ∈ rs := lastElem_mem _ _ (ihr ▸ hmx)
      have hle : r.logDate ≤ m.logDate :=
        ledgerFrom_ts_le r.logDate r.totalWords _ h3 m hmem
      have hlast : rs.getLast? = some m := by rw [← ihr, hmx]
      have hcons : (r :: rs).getLast? = some m :=
        Option.mem_def.mp (List.mem_getLast?_cons (Option.mem_def.mpr hlast))
      show (if m.logDate ≥ r.logDate then some m else some r) = (r :: rs).getLast?
      rw [if_pos hle, hcons]

/-- The final running total is the last entry's total (or the start value
when the list is empty). -/
theorem lastTotD_eq (p : Int) (l : List ProgressRow) :
    lastTotD p l = match l.getLast? with
      | some r => r.totalWords
      | none => p := by
  induction l generalizing p with
  | nil => rfl
  | cons a l ih =>
    cases l with
    | nil => simp [lastTotD, List.getLast?_singleton]
    | cons b l' =>
      rw [lastTotD, ih, List.getLast?_cons_cons]
      cases hgl : (b :: l').getLast? with
      | none =>
        exact absurd (List.getLast?_eq_none_iff.mp hgl) (by simp)
      | some x => rfl

/-- On a valid ledger the handler's current-total query agrees with the
final running total of the insertion-order list. -/
theorem currentTotal_eq_lastTotD (db : DB) (pid : Int)
    (h : ledgerOk (projLog db pid) = true) :
    currentTotal db pid = lastTotD 0 (projLog db pid) := by
  rw [currentTotal, lastLogRow, maxByDate_of_ledger none 0 _ h, lastTotD_eq]

/-- Appending a fresh, correctly chained entry preserves the ledger
invariant of every project. -/
theorem ledgerInv_insert (db : DB) (r : ProgressRow)
    (hInv : ledgerInv db)
    (hts : ∀ x ∈ projLog db r.projectId, x.logDate ≤ r.logDate)
    (htot : r.totalWords = lastTotD 0 (projLog db r.projectId) + r.wordCount) :
    ledgerInv { db with logs := db.logs ++ [r] } := by
  intro q
  by_cases hq : r.projectId = q
  · have hsplit : projLog { db with logs := db.logs ++ [r] } q
        = projLog db q ++ [r] := by
      simp [projLog, List.filter_append, hq]
    rw [ledgerOk, hsplit, ledgerFrom_append]
    subst hq
    refine ⟨hInv _, ?_, htot⟩
    intro t ht
    rcases lastTsD_cases none _ t ht with h' | ⟨x, hx, hxt⟩
    · simp at h'
    · exact hxt ▸ hts x hx
  · have hsplit : projLog { db with logs := db.logs ++ [r] } q
        = projLog db q := by
      simp [projLog, List.filter_append, hq]
    rw [ledgerOk, hsplit]
    exact hInv q

/-- `currentTotal` only reads the ProgressLog table. -/
theorem currentTotal_congr (db1 db2 : DB) (pid : Int) (h : db1.logs = db2.logs) :
    currentTotal db1 pid = currentTotal db2 pid := by
  rw [currentTotal, currentTotal, lastLogRow, lastLogRow, projLog, projLog, h]

/-- The ledger invariant only reads the ProgressLog table. -/
theorem ledgerInv_congr (db1 db2 : DB) (h : db1.logs = db2.logs) :
    ledgerInv db1 ↔ ledgerInv db2 := by
  unfold ledgerInv projLog
  rw [h]

/-- The goal invariant only reads the Goal table. -/
theorem goalInv_congr (db1 db2 : DB) (h : db1.goals = db2.goals) :
    goalInv db1 ↔ goalInv db2 := by
  unfold goalInv activeGoals
  rw [h]

/-- Appending an entry to its own project's log. -/
theorem projLog_append_self (db : DB) (r : ProgressRow) :
    projLog { db with logs := db.logs ++ [r] } r.projectId
      = projLog db r.projectId ++ [r] := by
  simp [projLog, List.filter_append]

/-- Appending an entry leaves other projects' logs unchanged. -/
theorem projLog_append_ne (db : DB) (r : ProgressRow) (q : Int)
    (h : r.projectId ≠ q) :
    projLog { db with logs := db.logs ++ [r] } q = projLog db q := by
  simp [projLog, List.filter_append, h]

/-- After appending an entry whose timestamp is at least every existing
timestamp of its project, the project's current total is the new entry's
total. -/
theorem currentTotal_append_self (db : DB) (r : ProgressRow)
    (hts : ∀ x ∈ projLog db r.projectId, x.logDate ≤ r.logDate) :
    currentTotal { db with logs := db.logs ++ [r] } r.projectId = r.totalWords := by
  rw [currentTotal, lastLogRow, projLog_append_self, maxByDate_append_big _ _ hts]

/-- The head of a `dropWhile` result fails the predicate. -/
theorem dropWhile_head_not {α : Type} (p : α → Bool) :
    ∀ (l : List α) (x : α) (xs : List α), l.dropWhile p = x :: xs → p x = false := by
  intro l
  induction l with
  | nil => intro x xs h; cases h
  | cons a l ih =>
    intro x xs h
    rw [List.dropWhile_cons] at h
    by_cases hpa : p a = true
    · rw [if_pos hpa] at h
      exact ih x xs h
    · rw [if_neg hpa] at h
      injection h with h1 _
      subst h1
      exact Bool.eq_false_iff.mpr hpa

/-- A list containing a non-whitespace character has at least one token. -/
theorem countTokens_pos : ∀ l : List Char,
    (∃ c ∈ l, isWsChar c = false) → 0 < countTokensAux l false := by
  intro l
  induction l with
  | nil => rintro ⟨c, hc, _⟩; cases hc
  | cons a l ih =>
    rintro ⟨c, hc, hw⟩
    rcases List.mem_cons.mp hc with rfl | hc'
    · simp [countTokensAux, hw]
    · cases hwa : isWsChar a with
      | true => simpa [countTokensAux, hwa] using ih ⟨c, hc', hw⟩
      | false => simp [countTokensAux, hwa]

/-- A nonempty trimmed text contains a non-whitespace character. -/
theorem trim_has_nonws (t : List Char) (h : trimJS t ≠ []) :
    ∃ c ∈ trimJS t, isWsChar c = false := by
  simp only [trimJS] at h ⊢
  cases hv : ((t.dropWhile isWsChar).reverse).dropWhile isWsChar with
  | nil => rw [hv] at h; simp at h
  | cons x xs =>
    have hx : isWsChar x = false := dropWhile_head_not isWsChar _ x xs hv
    exact ⟨x, List.mem_reverse.mpr (List.mem_cons_self x xs), hx⟩

/-- The tokenization of a nonempty trimmed text is positive. -/
theorem splitWsLen_trim_pos (t : List Char) (h : trimJS t ≠ []) :
    0 < splitWsLen (trimJS t) := by
  obtain ⟨c, hc, hw⟩ := trim_has_nonws t h
  have hne : (trimJS t).isEmpty = false := by
    cases hv : trimJS t with
    | nil => exact absurd hv h
    | cons a l => rfl
  rw [splitWsLen]
  simp only [hne, Bool.false_eq_true, if_false]
  exact countTokens_pos _ ⟨c, hc, hw⟩

/-- Without a positive manual count the handler falls back to the text. -/
theorem wordCountOf_eq_textCount (text manual : Option (List Char))
    (h : manualPositive manual = false) :
    wordCountOf text manual = textCount text := by
  cases manual with
  | none => rfl
  | some m =>
    simp only [wordCountOf, manualPositive] at h ⊢
    cases hp : parseIntJS m with
    | none => simp only [hp]
    | some n =>
      simp only [hp] at h ⊢
      rw [if_neg (of_decide_eq_false h)]

/-- Filtering after a pointwise filter-preserving map preserves length. -/
theorem length_filter_map_eq {α : Type} (f : α → α) (p : α → Bool) (l : List α)
    (h : ∀ x, p (f x) = p x) :
    ((l.map f).filter p).length = (l.filter p).length := by
  induction l with
  | nil => rfl
  | cons a l ih =>
    rw [List.map_cons, List.filter_cons, List.filter_cons, h a]
    cases hpa : p a <;> simp [ih]

/-- Conjoining a second filter condition cannot increase the length. -/
theorem length_filter_and_le {α : Type} (p q : α → Bool) (l : List α) :
    (l.filter (fun x => p x && q x)).length ≤ (l.filter p).length := by
  induction l with
  | nil => exact le_rfl
  | cons a l ih =>
    rw [List.filter_cons, List.filter_cons]
    cases hpa : p a <;> cases hqa : q a <;> simp [hpa, hqa] <;> omega

/-- C7: every request to a path outside `/`, `/login`, `/logout` by a
session that is not authenticated is answered by the middleware with the
login view rendered with the message "Please log in to access this page",
no database query is issued, and the store is unchanged. -/
theorem unauthenticated_renders_login (db : DB) (sess : Session)
    (req : Request) (now : Nat)
    (hpath : openPaths.contains (Request.path req) = false)
    (hauth : sess.isLoggedIn = false) :
    handleRequest db sess req now =
      { db := db, ops := []
        resp := Response.renderLogin (some "Please log in to access this page") } := by
  simp only [handleRequest]
  rw [if_neg (by rw [hpath]; exact Bool.false_ne_true),
    if_neg (by rw [hauth]; exact Bool.false_ne_true)]

/-- Witness for C7: an unauthenticated `GET /dashboard` against an empty
store renders the login view with the message and changes nothing. -/
theorem unauthenticated_renders_login_witness :
    handleRequest ⟨[], [], [], []⟩ ⟨false, 0, "", "U"⟩ Request.getDashboard 0 =
      { db := ⟨[], [], [], []⟩, ops := []
        resp := Response.renderLogin (some "Please log in to access this page") } :=
  unauthenticated_renders_login _ _ _ _ (by decide) rfl

/-- C9: a manager's `POST /delete-user/:id` whose id parameter parses to the
session user's own id is rejected with a 400 response before any database
query, leaving the store (in particular the User table) unchanged. -/
theorem self_delete_rejected (db : DB) (sess : Session) (idStr : List Char)
    (hm : sess.permissions = "M")
    (hid : parseIntJS idStr = some sess.userId) :
    postDeleteUser db sess idStr =
      { db := db, ops := []
        resp := Response.badRequest "You cannot delete your own account" } := by
  simp [postDeleteUser, hm, hid]

/-- Witness for C9: the manager with id 7 requesting deletion of id "7" is
rejected and the store is unchanged. -/
theorem self_delete_rejected_witness :
    postDeleteUser ⟨[], [], [], []⟩ ⟨true, 7, "boss", "M"⟩ ['7'] =
      { db := ⟨[], [], [], []⟩, ops := []
        resp := Response.badRequest "You cannot delete your own account" } :=
  self_delete_rejected _ _ _ rfl (by decide)

/-- C10: a login attempt with an unknown username and a login attempt with a
known username but a wrong password produce the same observable response:
the login view rendered with "Invalid username or password". -/
theorem login_failure_indistinguishable (db : DB) (u1 p1 u2 p2 : String)
    (now : Nat)
    (h1 : db.users.find? (fun u => u.username == u1) = none)
    (h2 : ∃ x, db.users.find? (fun u => u.username == u2) = some x ∧
      p2 ≠ x.passwordText) :
    (postLogin db u1 p1 now).resp = (postLogin db u2 p2 now).resp ∧
    (postLogin db u1 p1 now).resp
      = Response.renderLogin (some "Invalid username or password") := by
  obtain ⟨x, hx, hpw⟩ := h2
  have hb : (p2 == x.passwordText) = false := by
    simp [hpw]
  simp [postLogin, h1, hx, hb]

/-- Witness for C10: against a store holding only the user "alice", the
attempts ("bob", "pw") and ("alice", "wrong") are indistinguishable. -/
theorem login_failure_indistinguishable_witness :
    (postLogin ⟨[⟨1, "alice", "a", "A", "L", "U", "pw", none⟩], [], [], []⟩
        "bob" "pw" 0).resp
      = (postLogin ⟨[⟨1, "alice", "a", "A", "L", "U", "pw", none⟩], [], [], []⟩
        "alice" "wrong" 0).resp ∧
    (postLogin ⟨[⟨1, "alice", "a", "A", "L", "U", "pw", none⟩], [], [], []⟩
        "bob" "pw" 0).resp
      = Response.renderLogin (some "Invalid username or password") :=
  login_failure_indistinguishable _ _ _ _ _ _ (by decide)
    ⟨⟨1, "alice", "a", "A", "L", "U", "pw", none⟩, by decide, by decide⟩

/-- C5: a word-count of zero is derived exactly from a submission with no
positive manual count and empty-or-whitespace text, and such a submission is
rejected: the store is unchanged, only the project lookup query is issued,
and the log-words form is re-rendered with the validation message. -/
theorem zero_wordcount_rejected (db : DB) (sess : Session) (pid : Int)
    (text manual : Option (List Char)) (now : Nat) :
    (manualPositive manual = false → trimEmptyText text = true →
      wordCountOf text manual = 0) ∧
    (wordCountOf text manual = 0 →
      (postLogWords db sess pid text manual now).db = db ∧
      (postLogWords db sess pid text manual now).ops = [DbOp.selProjectDetail] ∧
      (postLogWords db sess pid text manual now).resp
        = Response.renderLogWords (projectOwned db pid sess.userId)
            (some "Please enter text or a word count")) := by
  constructor
  · intro hm ht
    rw [wordCountOf_eq_textCount _ _ hm]
    cases text with
    | none => rfl
    | some t =>
      have ht' : (trimJS t).isEmpty = true := ht
      simp [textCount, ht']
  · intro h0
    refine ⟨?_, ?_, ?_⟩ <;> simp [postLogWords, h0]

/-- Witness for C5: whitespace-only text with no manual count against an
empty store leaves the store unchanged and re-renders the form with the
validation message. -/
theorem zero_wordcount_rejected_witness :
    (postLogWords ⟨[], [], [], []⟩ ⟨true, 1, "alice", "U"⟩ 1
        (some [' ', ' ']) none 9).db = ⟨[], [], [], []⟩ ∧
    (postLogWords ⟨[], [], [], []⟩ ⟨true, 1, "alice", "U"⟩ 1
        (some [' ', ' ']) none 9).ops = [DbOp.selProjectDetail] ∧
    (postLogWords ⟨[], [], [], []⟩ ⟨true, 1, "alice", "U"⟩ 1
        (some [' ', ' ']) none 9).resp
      = Response.renderLogWords
          (projectOwned ⟨[], [], [], []⟩ 1 (⟨true, 1, "alice", "U"⟩ : Session).userId)
          (some "Please enter text or a word count") :=
  (zero_wordcount_rejected _ _ _ _ _ _).2 (by decide)

/-- A store whose single project, goal and progress entry belong to user 1,
with an authenticated session of a different user (id 2). -/
def crossDb : DB :=
  { users := [⟨1, "owner", "o", "O", "W", "U", "pw", none⟩]
    projects := [⟨1, 1, "Novel", "Fantasy", none, 0⟩]
    goals := [⟨1, "total_words", 1000, 100, 0, true⟩]
    logs := [⟨1, 5, 5, 1⟩] }

/-- An authenticated non-manager session for user 2, who owns nothing. -/
def intruderSess : Session := ⟨true, 2, "intruder", "U"⟩

/-- C2 exhibit: user 2's `POST /delete/1` deletes user 1's Goal and
ProgressLog rows (those DELETEs filter by project id only), and user 2's
`POST /log-words/1` appends an entry to user 1's project (the insert path
has no ownership check), contradicting the ownership claim. -/
theorem delete_route_cross_user_effect :
    (postDelete crossDb intruderSess 1).db.goals = [] ∧
    (postDelete crossDb intruderSess 1).db.logs = [] ∧
    (postDelete crossDb intruderSess 1).db.projects = crossDb.projects ∧
    crossDb.goals ≠ [] ∧ crossDb.logs ≠ [] ∧
    (postLogWords crossDb intruderSess 1 none (some ['4']) 5).db.logs
      = crossDb.logs ++ [⟨1, 4, 9, 5⟩] := by
  decide

/-- Appending an entry of a project to the store, stated with an explicit
target project id. -/
theorem projLog_append_eq (db : DB) (r : ProgressRow) (q : Int)
    (h : r.projectId = q) :
    projLog { db with logs := db.logs ++ [r] } q = projLog db q ++ [r] := by
  subst h
  exact projLog_append_self db r

/-- C8: for a free-text submission with no positive manual count, the
appended delta equals the number of whitespace-separated tokens of the
trimmed text, and the project's current total increases by exactly that
number. -/
theorem text_tokenization_delta (db : DB) (sess : Session) (pid : Int)
    (t : List Char) (manual : Option (List Char)) (now : Nat)
    (hm : manualPositive manual = false)
    (ht : trimJS t ≠ [])
    (hts : ∀ r ∈ projLog db pid, r.logDate ≤ now) :
    (postLogWords db sess pid (some t) manual now).db.logs
      = db.logs ++ [⟨pid, (splitWsLen (trimJS t) : Int),
          currentTotal db pid + (splitWsLen (trimJS t) : Int), now⟩] ∧
    currentTotal (postLogWords db sess pid (some t) manual now).db pid
      = currentTotal db pid + (splitWsLen (trimJS t) : Int) := by
  have hne : (trimJS t).isEmpty = false := by
    cases hv : trimJS t with
    | nil => exact absurd hv ht
    | cons a l => rfl
  have hwc : wordCountOf (some t) manual = (splitWsLen (trimJS t) : Int) := by
    rw [wordCountOf_eq_textCount _ _ hm]
    simp [textCount, hne]
  have hpos : (0 : Int) < (splitWsLen (trimJS t) : Int) := by
    exact_mod_cast splitWsLen_trim_pos t ht
  have hne0 : ¬ wordCountOf (some t) manual = 0 := by
    rw [hwc]; omega
  have hk : ¬ splitWsLen (trimJS t) = 0 :=
    Nat.pos_iff_ne_zero.mp (splitWsLen_trim_pos t ht)
  have hdb : (postLogWords db sess pid (some t) manual now).db =
      { db with logs := db.logs ++ [⟨pid, (splitWsLen (trimJS t) : Int),
        currentTotal db pid + (splitWsLen (trimJS t) : Int), now⟩] } := by
    simp [postLogWords, hne0, hwc, hk]
  refine ⟨by rw [hdb], ?_⟩
  rw [hdb]
  exact currentTotal_append_self db
    ⟨pid, (splitWsLen (trimJS t) : Int),
      currentTotal db pid + (splitWsLen (trimJS t) : Int), now⟩ hts

/-- Witness for C8: submitting the text "one two three" to a project with no
entries makes the current total 3. -/
theorem text_tokenization_delta_witness :
    currentTotal (postLogWords ⟨[], [], [], []⟩ ⟨true, 1, "alice", "U"⟩ 1
      (some "one two three".toList) none 5).db 1 = 3 := by
  have h := (text_tokenization_delta ⟨[], [], [], []⟩ ⟨true, 1, "alice", "U"⟩ 1
    "one two three".toList none 5 (by decide) (by decide) (by decide)).2
  exact h.trans (by decide)

/-- C3 (amended): with well-formed numeric fields and a submission time not
earlier than the existing entries, restating the current total as `n`:
if `n` equals the previous total nothing is appended; if it differs and the
log is nonempty or `n` is positive, exactly one entry with delta
`n - previousTotal` and total `n` is appended and the current total becomes
`n`; but on an empty log with negative `n` nothing is appended and the total
stays 0 (the code only inserts a first entry when the total is positive). -/
theorem edit_restate_total_spec (db : DB) (sess : Session) (pid : Int)
    (title genre : String) (descr : Option String)
    (targetWords currentWords dailyGoal : Option (List Char))
    (startDate now : Nat) (tv n : Int)
    (htv : parseIntOpt targetWords = some tv)
    (hcw : parseIntOpt currentWords = some n)
    (hts : ∀ r ∈ projLog db pid, r.logDate ≤ now) :
    (n = currentTotal db pid →
      (postEdit db sess pid title genre descr targetWords currentWords
        dailyGoal startDate now).db.logs = db.logs) ∧
    (n ≠ currentTotal db pid → (projLog db pid ≠ [] ∨ 0 < n) →
      (postEdit db sess pid title genre descr targetWords currentWords
        dailyGoal startDate now).db.logs
        = db.logs ++ [⟨pid, n - currentTotal db pid, n, now⟩] ∧
      currentTotal (postEdit db sess pid title genre descr targetWords
        currentWords dailyGoal startDate now).db pid = n) ∧
    (projLog db pid = [] → n < 0 →
      (postEdit db sess pid title genre descr targetWords currentWords
        dailyGoal startDate now).db.logs = db.logs ∧
      currentTotal (postEdit db sess pid title genre descr targetWords
        currentWords dailyGoal startDate now).db pid = 0) := by
  simp only [postEdit, htv, hcw]
  cases hmax : maxByDate (projLog db pid) with
  | none =>
    simp only []
    have hct : currentTotal db pid = 0 := by
      rw [currentTotal, lastLogRow, hmax]
    have hnil : projLog db pid = [] := (maxByDate_eq_none _).mp hmax
    refine ⟨?_, ?_, ?_⟩
    · intro hn
      rw [hct] at hn
      simp [hn]
    · intro hn hor
      rw [hct] at hn
      have hpos : 0 < n := by
        rcases hor with h | h
        · exact absurd hnil h
        · exact h
      rw [if_pos hpos]
      refine ⟨by simp [hct], ?_⟩
      refine Eq.trans (currentTotal_congr _
        { db with logs := db.logs ++ [⟨pid, n, n, now⟩] } pid rfl) ?_
      exact currentTotal_append_self db ⟨pid, n, n, now⟩ hts
    · intro _ hneg
      have hnp : ¬ 0 < n := by omega
      rw [if_neg hnp]
      refine ⟨rfl, ?_⟩
      exact Eq.trans (currentTotal_congr _ db pid rfl) hct
  | some e =>
    simp only []
    have hct : currentTotal db pid = e.totalWords := by
      rw [currentTotal, lastLogRow, hmax]
    refine ⟨?_, ?_, ?_⟩
    · intro hn
      rw [hct] at hn
      have : ¬ e.totalWords ≠ n := fun h => h hn.symm
      rw [if_neg this]
    · intro hn hor
      rw [hct] at hn
      have hne : e.totalWords ≠ n := fun h => hn h.symm
      rw [if_pos hne]
      constructor
      · rw [hct]
      · refine Eq.trans (currentTotal_congr _
          { db with logs := db.logs ++ [⟨pid, n - e.totalWords, n, now⟩] } pid rfl) ?_
        exact currentTotal_append_self db ⟨pid, n - e.totalWords, n, now⟩ hts
    · intro hnil _
      rw [hnil] at hmax
      simp [maxByDate] at hmax

/-- C3 counterexample: on an empty log, restating the total as -3 (which
differs from the previous total 0) appends nothing and the total stays 0,
while the claim requires an appended entry and a current total of -3. -/
theorem edit_restate_total_cex :
    ((-3 : Int) ≠ currentTotal ⟨[], [], [], []⟩ 1) ∧
    (postEdit ⟨[], [], [], []⟩ ⟨true, 1, "alice", "U"⟩ 1 "t" "g" none
      (some ['1', '0', '0']) (some ['-', '3']) none 0 9).db.logs = [] ∧
    currentTotal (postEdit ⟨[], [], [], []⟩ ⟨true, 1, "alice", "U"⟩ 1 "t" "g"
      none (some ['1', '0', '0']) (some ['-', '3']) none 0 9).db 1 = 0 := by
  decide

/-- Witness for C3: restating the total of a project whose last entry has
total 5 as 40 appends one signed entry and the current total becomes 40. -/
theorem edit_restate_total_witness :
    currentTotal (postEdit
      ⟨[], [], [⟨1, "total_words", 1000, 100, 0, true⟩], [⟨1, 5, 5, 1⟩]⟩
      ⟨true, 1, "alice", "U"⟩ 1 "t" "g" none (some ['1', '0', '0'])
      (some ['4', '0']) none 0 9).db 1 = 40 := by
  exact ((edit_restate_total_spec
    ⟨[], [], [⟨1, "total_words", 1000, 100, 0, true⟩], [⟨1, 5, 5, 1⟩]⟩
    ⟨true, 1, "alice", "U"⟩ 1 "t" "g" none (some ['1', '0', '0'])
    (some ['4', '0']) none 0 9 100 40 (by decide) (by decide)
    (by decide)).2.1 (by decide) (by decide)).2

/-- A sequence of `POST /log-words/:id` submissions: each element carries the
manual-count field, the integer it parses to, and the submission time. -/
def runLogSeq (sess : Session) (pid : Int) :
    DB → List (List Char × Int × Nat) → DB
  | db, [] => db
  | db, (s, _, t) :: rest =>
    runLogSeq sess pid (postLogWords db sess pid none (some s) t).db rest

/-- Accumulator form of the C4 sum property. -/
theorem runLogSeq_total (sess : Session) (pid : Int) :
    ∀ (seq : List (List Char × Int × Nat)) (db : DB) (T : Int),
      (∀ x ∈ seq, parseIntJS x.1 = some x.2.1 ∧ 0 < x.2.1) →
      List.Chain' (fun a b : Nat => a ≤ b) (seq.map (fun x => x.2.2)) →
      (∀ t0 ∈ (seq.map (fun x => x.2.2)).head?,
        ∀ r ∈ projLog db pid, r.logDate ≤ t0) →
      currentTotal db pid = T →
      currentTotal (runLogSeq sess pid db seq) pid
        = T + (seq.map (fun x => x.2.1)).sum := by
  intro seq
  induction seq with
  | nil =>
    intro db T _ _ _ hT
    simpa [runLogSeq] using hT
  | cons x rest ih =>
    obtain ⟨s, d, t⟩ := x
    intro db T hp hc hlt hT
    have hpx := hp (s, d, t) (List.mem_cons_self _ _)
    have hd : 0 < d := hpx.2
    have hd0 : d ≠ 0 := by omega
    have hwc : wordCountOf none (some s) = d := by
      simp [wordCountOf, hpx.1, hd]
    have hne0 : ¬ wordCountOf none (some s) = 0 := by
      rw [hwc]
      exact hd0
    have hrow : (postLogWords db sess pid none (some s) t).db =
        { db with logs := db.logs ++ [⟨pid, d, currentTotal db pid + d, t⟩] } := by
      simp [postLogWords, hne0, hwc, hd0]
    have htsr : ∀ r ∈ projLog db pid, r.logDate ≤ t := by
      intro r hr
      exact hlt t (by simp) r hr
    have hcur : currentTotal (postLogWords db sess pid none (some s) t).db pid
        = T + d := by
      rw [hrow,
        currentTotal_append_self db ⟨pid, d, currentTotal db pid + d, t⟩ htsr, hT]
    have hhead : ∀ t1 ∈ (rest.map (fun x => x.2.2)).head?, t ≤ t1 := by
      rw [List.map_cons] at hc
      exact (List.chain'_cons'.mp hc).1
    have hc' : List.Chain' (fun a b : Nat => a ≤ b)
        (rest.map (fun x => x.2.2)) := by
      rw [List.map_cons] at hc
      exact (List.chain'_cons'.mp hc).2
    have hlt' : ∀ t1 ∈ (rest.map (fun x => x.2.2)).head?,
        ∀ r ∈ projLog (postLogWords db sess pid none (some s) t).db pid,
          r.logDate ≤ t1 := by
      intro t1 ht1 r hr
      rw [hrow, projLog_append_eq db ⟨pid, d, currentTotal db pid + d, t⟩ pid rfl]
        at hr
      rcases List.mem_append.mp hr with h | h
      · exact le_trans (htsr r h) (hhead t1 ht1)
      · have hr' : r = ⟨pid, d, currentTotal db pid + d, t⟩ := by
          simpa using h
        rw [hr']
        exact hhead t1 ht1
    have hrest := ih (postLogWords db sess pid none (some s) t).db (T + d)
      (fun y hy => hp y (List.mem_cons_of_mem _ hy)) hc' hlt' hcur
    simp only [runLogSeq]
    rw [hrest]
    simp only [List.map_cons, List.sum_cons]
    omega

/-- C4: starting from an empty progress log, a sequence of word-logging
submissions whose manual counts parse to positive deltas (submitted at
nondecreasing times) leaves the current total equal to the sum of the
deltas. -/
theorem recordWords_sum (db : DB) (sess : Session) (pid : Int)
    (seq : List (List Char × Int × Nat))
    (hp : ∀ x ∈ seq, parseIntJS x.1 = some x.2.1 ∧ 0 < x.2.1)
    (hc : List.Chain' (fun a b : Nat => a ≤ b) (seq.map (fun x => x.2.2)))
    (he : projLog db pid = []) :
    currentTotal (runLogSeq sess pid db seq) pid
      = (seq.map (fun x => x.2.1)).sum := by
  have h0 : currentTotal db pid = 0 := by
    rw [currentTotal, lastLogRow, he]
    rfl
  have hlt : ∀ t0 ∈ (seq.map (fun x => x.2.2)).head?,
      ∀ r ∈ projLog db pid, r.logDate ≤ t0 := by
    intro t0 _ r hr
    rw [he] at hr
    cases hr
  have h := runLogSeq_total sess pid seq db 0 hp hc hlt h0
  simpa using h

/-- Witness for C4: logging "3" then "4" against an empty store yields a
current total of 7. -/
theorem recordWords_sum_witness :
    currentTotal (runLogSeq ⟨true, 1, "alice", "U"⟩ 1 ⟨[], [], [], []⟩
      [(['3'], 3, 1), (['4'], 4, 2)]) 1 = 7 := by
  have h := recordWords_sum ⟨[], [], [], []⟩ ⟨true, 1, "alice", "U"⟩ 1
    [(['3'], 3, 1), (['4'], 4, 2)] (by decide)
    (by simp [List.chain'_cons, List.chain'_singleton]) (by decide)
  exact h.trans (by decide)

/-- C1 (amended): the ledger invariant — entries of every project, in
insertion order, have nondecreasing timestamps and running totals chained
from zero — is preserved by every appending operation, provided a created
project's id is fresh and the appended entry's timestamp is not earlier than
the project's existing entries.  (Unconditionally the claim fails: project
creation stamps the initial entry with the user-supplied start date, which a
later submission time may precede — see the counterexample.) -/
theorem ledger_invariant_preserved (db : DB) (sess : Session) (now : Nat)
    (op : MutOp) (hInv : ledgerInv db) (hOp : opLogSafe db now op) :
    ledgerInv (applyOp db sess now op) := by
  cases op with
  | add f tt g d tw cw dg sd =>
    have hOp' : projLog db f = [] := hOp
    simp only [applyOp, postAdd]
    cases htw : parseIntOpt tw with
    | none =>
      simp only []
      exact (ledgerInv_congr _ db rfl).mpr hInv
    | some tv =>
      simp only []
      cases hcw : parseIntOpt cw with
      | none =>
        simp only []
        exact (ledgerInv_congr _ db rfl).mpr hInv
      | some nn =>
        simp only []
        by_cases hpos : 0 < nn
        · rw [if_pos hpos]
          refine (ledgerInv_congr _
            { db with logs := db.logs ++ [⟨f, nn, nn, sd⟩] } rfl).mpr ?_
          apply ledgerInv_insert db ⟨f, nn, nn, sd⟩ hInv
          · intro x hx
            rw [hOp'] at hx
            cases hx
          · show nn = lastTotD 0 (projLog db f) + nn
            rw [hOp']
            show nn = 0 + nn
            omega
        · rw [if_neg hpos]
          exact (ledgerInv_congr _ db rfl).mpr hInv
  | edit p tt g d tw cw dg sd =>
    have hOp' : ∀ r ∈ projLog db p, r.logDate ≤ now := hOp
    simp only [applyOp, postEdit]
    cases htw : parseIntOpt tw with
    | none =>
      simp only []
      exact (ledgerInv_congr _ db rfl).mpr hInv
    | some tv =>
      simp only []
      cases hmax : maxByDate (projLog db p) with
      | none =>
        cases hcw : parseIntOpt cw with
        | some nn =>
          simp only []
          by_cases hpos : 0 < nn
          · rw [if_pos hpos]
            refine (ledgerInv_congr _
              { db with logs := db.logs ++ [⟨p, nn, nn, now⟩] } rfl).mpr ?_
            apply ledgerInv_insert db ⟨p, nn, nn, now⟩ hInv
            · intro x hx
              exact hOp' x hx
            · have hnil : projLog db p = [] := (maxByDate_eq_none _).mp hmax
              show nn = lastTotD 0 (projLog db p) + nn
              rw [hnil]
              show nn = 0 + nn
              omega
          · rw [if_neg hpos]
            exact (ledgerInv_congr _ db rfl).mpr hInv
        | none =>
          simp only []
          exact (ledgerInv_congr _ db rfl).mpr hInv
      | some e =>
        cases hcw : parseIntOpt cw with
        | some nn =>
          simp only []
          by_cases hne : e.totalWords ≠ nn
          · rw [if_pos hne]
            refine (ledgerInv_congr _
              { db with logs := db.logs ++ [⟨p, nn - e.totalWords, nn, now⟩] }
              rfl).mpr ?_
            apply ledgerInv_insert db ⟨p, nn - e.totalWords, nn, now⟩ hInv
            · intro x hx
              exact hOp' x hx
            · have hbridge : lastTotD 0 (projLog db p) = e.totalWords := by
                have h1 := currentTotal_eq_lastTotD db p (hInv p)
                have h2 : currentTotal db p = e.totalWords := by
                  rw [currentTotal, lastLogRow, hmax]
                rw [← h1]
                exact h2
              show nn = lastTotD 0 (projLog db p) + (nn - e.totalWords)
              rw [hbridge]
              omega
          · rw [if_neg hne]
            exact (ledgerInv_congr _ db rfl).mpr hInv
        | none =>
          simp only []
          exact (ledgerInv_congr _ db rfl).mpr hInv
  | logWords p text manual =>
    have hOp' : ∀ r ∈ projLog db p, r.logDate ≤ now := hOp
    simp only [applyOp, postLogWords]
    by_cases h0 : wordCountOf text manual = 0
    · rw [if_pos h0]
      exact hInv
    · rw [if_neg h0]
      refine (ledgerInv_congr _
        { db with logs := db.logs ++ [⟨p, wordCountOf text manual,
          currentTotal db p + wordCountOf text manual, now⟩] } rfl).mpr ?_
      apply ledgerInv_insert db
        ⟨p, wordCountOf text manual,
          currentTotal db p + wordCountOf text manual, now⟩ hInv
      · intro x hx
        exact hOp' x hx
      · show currentTotal db p + wordCountOf text manual
          = lastTotD 0 (projLog db p) + wordCountOf text manual
        rw [currentTotal_eq_lastTotD db p (hInv p)]
  | deleteProject p =>
    intro q
    have hgoal : projLog (applyOp db sess now (MutOp.deleteProject p)) q
        = (db.logs.filter (fun r => !(r.projectId == p))).filter
            (fun r => r.projectId == q) := rfl
    rw [ledgerOk, hgoal, List.filter_filter]
    by_cases hq : q = p
    · subst hq
      have hnil : List.filter
          (fun r => r.projectId == q && !(r.projectId == q)) db.logs = [] := by
        apply List.filter_eq_nil_iff.mpr
        intro r _
        by_cases hb : (r.projectId == q) = true <;> simp [hb]
      rw [hnil]
      rfl
    · have hsame : List.filter
          (fun r => r.projectId == q && !(r.projectId == p)) db.logs
          = List.filter (fun r => r.projectId == q) db.logs := by
        apply List.filter_congr
        intro r _
        by_cases hb : (r.projectId == q) = true
        · have hrq : r.projectId = q := beq_iff_eq.mp hb
          have hbp : (r.projectId == p) = false := by
            apply beq_eq_false_iff_ne.mpr
            rw [hrq]
            exact hq
          simp [hb, hbp]
        · simp [Bool.eq_false_iff.mpr hb]
      rw [hsame]
      exact hInv q

/-- Witness for C1: one word-logging append against an empty store preserves
the ledger invariant of project 1. -/
theorem ledger_invariant_preserved_witness :
    ledgerOk (projLog (applyOp ⟨[], [], [], []⟩ ⟨true, 1, "alice", "U"⟩ 5
      (MutOp.logWords 1 none (some ['7']))) 1) = true := by
  have h := ledger_invariant_preserved ⟨[], [], [], []⟩ ⟨true, 1, "alice", "U"⟩ 5
    (MutOp.logWords 1 none (some ['7']))
    (fun _ => rfl) (by intro r hr; simp [projLog] at hr)
  exact h 1

/-- The session of the project owner used in the C1 counterexample. -/
def cexSess : Session := ⟨true, 1, "alice", "U"⟩

/-- Store after creating project 1 with start date 10 and initial count 5
(the initial entry is stamped with the start date). -/
def cexDb1 : DB :=
  applyOp ⟨[], [], [], []⟩ cexSess 0
    (MutOp.add 1 "Novel" "Fantasy" none (some ['1', '0', '0']) (some ['5'])
      (some ['1', '0']) 10)

/-- Store after additionally logging the text "hi there" at clock time 3,
which precedes the stored start date 10. -/
def cexDb2 : DB :=
  applyOp cexDb1 cexSess 3 (MutOp.logWords 1 (some "hi there".toList) none)

/-- Running-total chain check alone, over a list in the given order. -/
def chainTot : Int → List ProgressRow → Bool
  | _, [] => true
  | prev, r :: rs => (r.totalWords == prev + r.wordCount) && chainTot r.totalWords rs

/-- Insertion into a timestamp-sorted list. -/
def insertByDate (r : ProgressRow) : List ProgressRow → List ProgressRow
  | [] => [r]
  | x :: xs =>
    if r.logDate ≤ x.logDate then r :: x :: xs else x :: insertByDate r xs

/-- Insertion sort of entries by timestamp (the history order of the spec). -/
def sortByDate : List ProgressRow → List ProgressRow
  | [] => []
  | x :: xs => insertByDate x (sortByDate xs)

/-- C1 counterexample: after creating a project whose start date (10)
carries an initial count and then logging words at the earlier clock time 3,
the reachable store violates the claimed invariant: the entries are not
timestamp-ordered in insertion order, and the timestamp-sorted sequence
breaks the running-total chain (its first entry's total is not its own
delta). -/
theorem ledger_invariant_cex :
    ledgerOk (projLog cexDb2 1) = false ∧
    chainTot 0 (sortByDate (projLog cexDb2 1)) = false := by
  decide

/-- C6: at most one active `total_words` goal per project is preserved by
every operation: project creation with a fresh id inserts exactly one active
goal (when the target field is well-formed), the edit flow overwrites the
active goal in place, word logging leaves goals untouched, and deletion only
removes rows. -/
theorem active_goal_unique_preserved (db : DB) (sess : Session) (now : Nat)
    (op : MutOp) (hInv : goalInv db) (hOp : opGoalSafe db op) :
    goalInv (applyOp db sess now op) ∧
    (∀ f tt g d tw cw dg sd tv, op = MutOp.add f tt g d tw cw dg sd →
      parseIntOpt tw = some tv →
      (activeGoals (applyOp db sess now op) f).length = 1) := by
  cases op with
  | add f tt g d tw cw dg sd =>
    have hOp' : db.goals.filter (fun gg => gg.projectId == f) = [] := hOp
    have hnil : db.goals.filter (fun gg =>
        gg.projectId == f && gg.isActive && gg.goalType == "total_words") = [] := by
      apply List.filter_eq_nil_iff.mpr
      intro gg hg
      have hne := (List.filter_eq_nil_iff.mp hOp') gg hg
      simp only [Bool.and_eq_true]
      rintro ⟨⟨ha, _⟩, _⟩
      exact hne ha
    simp only [applyOp, postAdd]
    cases htw : parseIntOpt tw with
    | none =>
      simp only []
      refine ⟨(goalInv_congr _ db rfl).mpr hInv, ?_⟩
      intro f' tt' g' d' tw' cw' dg' sd' tv' heq htv'
      injection heq with h1 h2 h3 h4 h5 h6 h7 h8
      subst h5
      rw [htw] at htv'
      cases htv'
    | some tv =>
      simp only []
      have hmain : ∀ (dt : Int) (q : Int),
          ((db.goals ++ [(⟨f, "total_words", tv, dt, sd, true⟩ : GoalRow)]).filter
            (fun gg => gg.projectId == q && gg.isActive
              && gg.goalType == "total_words")).length ≤ 1 := by
        intro dt q
        rw [List.filter_append]
        by_cases hq : f = q
        · subst hq
          rw [hnil]
          simp
        · have hg0 : ((⟨f, "total_words", tv, dt, sd, true⟩ : GoalRow).projectId
              == q) = false := by
            apply beq_eq_false_iff_ne.mpr
            simpa using hq
          have hg1 : List.filter (fun gg => gg.projectId == q && gg.isActive
                && gg.goalType == "total_words")
              [(⟨f, "total_words", tv, dt, sd, true⟩ : GoalRow)] = [] := by
            simp [List.filter_cons, hg0]
          rw [hg1, List.append_nil]
          exact hInv q
      have hexact : ∀ dt : Int,
          ((db.goals ++ [(⟨f, "total_words", tv, dt, sd, true⟩ : GoalRow)]).filter
            (fun gg => gg.projectId == f && gg.isActive
              && gg.goalType == "total_words")).length = 1 := by
        intro dt
        rw [List.filter_append, hnil]
        simp
      cases hcw : parseIntOpt cw with
      | none =>
        simp only []
        refine ⟨fun q => hmain _ q, ?_⟩
        intro f' tt' g' d' tw' cw' dg' sd' tv' heq htv'
        injection heq with h1 h2 h3 h4 h5 h6 h7 h8
        subst h1
        subst h5
        rw [htw] at htv'
        injection htv' with htveq
        subst htveq
        exact hexact _
      | some nn =>
        simp only []
        by_cases hpos : 0 < nn
        · rw [if_pos hpos]
          refine ⟨fun q => hmain _ q, ?_⟩
          intro f' tt' g' d' tw' cw' dg' sd' tv' heq htv'
          injection heq with h1 h2 h3 h4 h5 h6 h7 h8
          subst h1
          subst h5
          rw [htw] at htv'
          injection htv' with htveq
          subst htveq
          exact hexact _
        · rw [if_neg hpos]
          refine ⟨fun q => hmain _ q, ?_⟩
          intro f' tt' g' d' tw' cw' dg' sd' tv' heq htv'
          injection heq with h1 h2 h3 h4 h5 h6 h7 h8
          subst h1
          subst h5
          rw [htw] at htv'
          injection htv' with htveq
          subst htveq
          exact hexact _
  | edit p tt g d tw cw dg sd =>
    refine ⟨?_, ?_⟩
    · simp only [applyOp, postEdit]
      cases htw : parseIntOpt tw with
      | none =>
        simp only []
        exact (goalInv_congr _ db rfl).mpr hInv
      | some tv =>
        simp only []
        have hlen : ∀ (dt : Int) (q : Int),
            ((db.goals.map (fun gg =>
              if gg.projectId == p && gg.goalType == "total_words" && gg.isActive
              then { gg with targetValue := tv, dailyTarget := dt }
              else gg)).filter (fun gg => gg.projectId == q && gg.isActive
                && gg.goalType == "total_words")).length ≤ 1 := by
          intro dt q
          rw [length_filter_map_eq]
          · exact hInv q
          · intro x
            by_cases hx : (x.projectId == p && x.goalType == "total_words"
                && x.isActive) = true
            · rw [if_pos hx]
            · rw [if_neg hx]
        cases hmax : maxByDate (projLog db p) with
        | none =>
          cases hcw : parseIntOpt cw with
          | some nn =>
            simp only []
            by_cases hpos : 0 < nn
            · rw [if_pos hpos]
              exact fun q => hlen _ q
            · rw [if_neg hpos]
              exact fun q => hlen _ q
          | none =>
            simp only []
            exact fun q => hlen _ q
        | some e =>
          cases hcw : parseIntOpt cw with
          | some nn =>
            simp only []
            by_cases hne : e.totalWords ≠ nn
            · rw [if_pos hne]
              exact fun q => hlen _ q
            · rw [if_neg hne]
              exact fun q => hlen _ q
          | none =>
            simp only []
            exact fun q => hlen _ q
    · intro f' tt' g' d' tw' cw' dg' sd' tv' heq _
      exact MutOp.noConfusion heq
  | logWords p text manual =>
    refine ⟨?_, ?_⟩
    · simp only [applyOp, postLogWords]
      by_cases h0 : wordCountOf text manual = 0
      · rw [if_pos h0]
        exact hInv
      · rw [if_neg h0]
        exact (goalInv_congr _ db rfl).mpr hInv
    · intro f' tt' g' d' tw' cw' dg' sd' tv' heq _
      exact MutOp.noConfusion heq
  | deleteProject p =>
    refine ⟨?_, ?_⟩
    · intro q
      have hg : activeGoals (applyOp db sess now (MutOp.deleteProject p)) q
          = (db.goals.filter (fun gg => !(gg.projectId == p))).filter
              (fun gg => gg.projectId == q && gg.isActive
                && gg.goalType == "total_words") := rfl
      rw [hg, List.filter_filter]
      exact le_trans (length_filter_and_le _ _ _) (hInv q)
    · intro f' tt' g' d' tw' cw' dg' sd' tv' heq _
      exact MutOp.noConfusion heq

/-- Witness for C6: creating project 1 against an empty store leaves exactly
one active `total_words` goal for it. -/
theorem active_goal_unique_preserved_witness :
    (activeGoals (applyOp ⟨[], [], [], []⟩ ⟨true, 1, "alice", "U"⟩ 0
      (MutOp.add 1 "Book" "g" none (some ['1', '0', '0']) none none 0)) 1).length
      = 1 := by
  have h := active_goal_unique_preserved ⟨[], [], [], []⟩ ⟨true, 1, "alice", "U"⟩ 0
    (MutOp.add 1 "Book" "g" none (some ['1', '0', '0']) none none 0)
    (fun _ => by simp [activeGoals]) rfl
  exact h.2 1 "Book" "g" none (some ['1', '0', '0']) none none 0 100 rfl (by decide)

end WordTracker
